import Mathlib

/-!
Verification of the LINNE numerical core (LPC analysis / quantization /
prediction-synthesis subsystem, preemphasis filter, M/S stereo transform).

The C sources are shallowly embedded:
* signed 32-bit arithmetic is modelled on `ℤ` with an explicit reduction
  `wrap32` into `[-2^31, 2^31)`; `wrap32` is a homomorphism on residues
  mod `2^32`, so wrapping a whole sum once agrees with the C program that
  wraps after every elementary int32 operation;
* unsigned 32-bit arithmetic is modelled on `ℕ` with explicit `% 2^32`
  (helper `u32sub` for the wrapping subtraction of unsigned counters);
* `double` values are modelled by exact rationals `ℚ`; the two places where
  the C code produces an irrational value (`sin` in the sine window and
  `pow(x, -0.5)` in the Cholesky factorization) take the value as an oracle
  argument, so every statement below is proved for all possible values of
  those oracles; division of doubles is exact on `ℚ` except that a zero
  denominator (which produces an IEEE infinity or NaN) is modelled by
  `Option` poisoning where a claim depends on it;
* buffers are Lean lists; an out-of-range read is `List.getD _ 0`.
-/

/-! ## Signed 32-bit integer model -/

/-- Reduce an integer into the two's-complement range `[-2^31, 2^31)`. -/
def wrap32 (z : ℤ) : ℤ := (z + 2 ^ 31) % 2 ^ 32 - 2 ^ 31

/-- Arithmetic right shift by `s` bits: floor division by `2^s`. -/
def sar32 (z : ℤ) (s : ℕ) : ℤ := Int.fdiv z (2 ^ s)

/-- The value is representable as a signed 32-bit integer. -/
def inInt32 (z : ℤ) : Prop := -2 ^ 31 ≤ z ∧ z < 2 ^ 31

instance (z : ℤ) : Decidable (inInt32 z) := by unfold inInt32; infer_instance

/-- Wrapping subtraction of 32-bit unsigned counters (all C loop-bound
arithmetic in the sources is `uint32_t`). -/
def u32sub (a b : ℕ) : ℕ := (((a : ℤ) - b) % 2 ^ 32).toNat

theorem wrap32_eq_self {z : ℤ} (h : inInt32 z) : wrap32 z = z := by
  obtain ⟨h1, h2⟩ := h
  unfold wrap32
  rw [Int.emod_eq_of_lt (by omega) (by omega)]
  omega

theorem wrap32_add_left (a b : ℤ) : wrap32 (wrap32 a + b) = wrap32 (a + b) := by
  unfold wrap32
  have h1 : (a + 2 ^ 31) % 2 ^ 32 - 2 ^ 31 + b + 2 ^ 31 = (a + 2 ^ 31) % 2 ^ 32 + b := by ring
  rw [h1, Int.emod_add_emod]
  ring_nf

theorem wrap32_sub_left (a b : ℤ) : wrap32 (wrap32 a - b) = wrap32 (a - b) := by
  have := wrap32_add_left a (-b)
  simpa [sub_eq_add_neg] using this

theorem wrap32_congr {a b : ℤ} (h : a % 2 ^ 32 = b % 2 ^ 32) : wrap32 a = wrap32 b := by
  unfold wrap32
  rw [Int.add_emod a, Int.add_emod b, h]

/-- `u32sub` agrees with truncated `ℕ` subtraction when no underflow occurs
and both operands are below `2^32`. -/
theorem u32sub_eq_sub {a b : ℕ} (hle : b ≤ a) (ha : a < 2 ^ 32) : u32sub a b = a - b := by
  unfold u32sub
  rw [Int.emod_eq_of_lt (by omega) (by omega)]
  omega

/-! ## `linne_utility.c`: round-up to a power of two -/

/-- `LINNEUtility_RoundUp2PoweredSoft` from `linne_utility.c`, with exact
`uint32_t` semantics (the initial `val--` wraps at zero). -/
def LINNEUtility_RoundUp2PoweredSoft (val : ℕ) : ℕ :=
  let x0 := (val + 2 ^ 32 - 1) % 2 ^ 32
  let x1 := x0 ||| (x0 >>> 1)
  let x2 := x1 ||| (x1 >>> 2)
  let x3 := x2 ||| (x2 >>> 4)
  let x4 := x3 ||| (x3 >>> 8)
  let x5 := x4 ||| (x4 >>> 16)
  (x5 + 1) % 2 ^ 32

/-! ## `linne_utility.c`: M/S stereo transform -/

/-- One sample of `LINNEUtility_MSConversion`: the side channel
(`buffer[1] -= buffer[0]`) is computed first, then the mid channel reads the
already-updated side value (`buffer[0] += buffer[1] >> 1`). -/
def msSample (l r : ℤ) : ℤ × ℤ :=
  let s := wrap32 (r - l)
  (wrap32 (l + sar32 s 1), s)

/-- One sample of `LINNEUtility_LRConversion`: `buffer[0] -= buffer[1] >> 1`
first, then `buffer[1] += buffer[0]` reads the already-updated left value. -/
def lrSample (m s : ℤ) : ℤ × ℤ :=
  let l := wrap32 (m - sar32 s 1)
  (l, wrap32 (s + l))

/-- `LINNEUtility_MSConversion` on a pair of equal-length channel buffers. -/
def LINNEUtility_MSConversion (l r : List ℤ) : List ℤ × List ℤ :=
  (List.zipWith (fun a b => (msSample a b).1) l r,
   List.zipWith (fun a b => (msSample a b).2) l r)

/-- `LINNEUtility_LRConversion` on a pair of equal-length channel buffers. -/
def LINNEUtility_LRConversion (m s : List ℤ) : List ℤ × List ℤ :=
  (List.zipWith (fun a b => (lrSample a b).1) m s,
   List.zipWith (fun a b => (lrSample a b).2) m s)

theorem lrSample_msSample {l r : ℤ} (hl : inInt32 l) (hr : inInt32 r) :
    lrSample (msSample l r).1 (msSample l r).2 = (l, r) := by
  unfold msSample lrSample
  simp only
  have h1 : wrap32 (wrap32 (l + sar32 (wrap32 (r - l)) 1) - sar32 (wrap32 (r - l)) 1) = l := by
    rw [wrap32_sub_left]
    simpa using wrap32_eq_self hl
  rw [h1]
  have h2 : wrap32 (wrap32 (r - l) + l) = r := by
    rw [wrap32_add_left]
    simpa using wrap32_eq_self hr
  rw [h2]

/-! ## `linne_utility.c`: preemphasis / deemphasis pair -/

/-- Output samples of `LINNEPreemphasisFilter_Preemphasis`: each output is
`s[n] - (prev * coef) >> shift` where `prev` is the previous input sample
(snapshotted before overwrite) and the first step uses the carried state. -/
def preemAux (sh : ℕ) (coef prev : ℤ) : List ℤ → List ℤ
  | [] => []
  | b :: rest => wrap32 (b - sar32 (wrap32 (prev * coef)) sh) :: preemAux sh coef b rest

/-- `LINNEPreemphasisFilter_Preemphasis`: returns the filtered block and the
updated filter state (the last input sample; unchanged on an empty block). -/
def LINNEPreemphasisFilter_Preemphasis (sh : ℕ) (coef prev : ℤ) (buf : List ℤ) :
    List ℤ × ℤ :=
  (preemAux sh coef prev buf, buf.getLastD prev)

/-- Output samples of `LINNEPreemphasisFilter_Deemphasis`: the first sample
adds `(prev * coef) >> shift`, later samples add the already-reconstructed
previous output sample times the coefficient. -/
def deemAux (sh : ℕ) (coef prevOut : ℤ) : List ℤ → List ℤ
  | [] => []
  | b :: rest =>
    let out := wrap32 (b + sar32 (wrap32 (prevOut * coef)) sh)
    out :: deemAux sh coef out rest

/-- `LINNEPreemphasisFilter_Deemphasis`: returns the reconstructed block and
the updated filter state (the last output sample). -/
def LINNEPreemphasisFilter_Deemphasis (sh : ℕ) (coef prev : ℤ) (buf : List ℤ) :
    List ℤ × ℤ :=
  ((deemAux sh coef prev buf), (deemAux sh coef prev buf).getLastD prev)

theorem deemAux_preemAux (sh : ℕ) (coef : ℤ) :
    ∀ (buf : List ℤ) (prev : ℤ), (∀ z ∈ buf, inInt32 z) →
      deemAux sh coef prev (preemAux sh coef prev buf) = buf := by
  intro buf
  induction buf with
  | nil => intro prev _; rfl
  | cons b rest ih =>
    intro prev hin
    have hb : inInt32 b := hin b (by simp)
    unfold preemAux deemAux
    simp only
    have hhead : wrap32 (wrap32 (b - sar32 (wrap32 (prev * coef)) sh)
        + sar32 (wrap32 (prev * coef)) sh) = b := by
      rw [wrap32_add_left]
      simpa using wrap32_eq_self hb
    rw [hhead]
    have := ih b (fun z hz => hin z (by simp [hz]))
    rw [this]

/-! ## `lpc.c`: integer predictor / synthesizer -/

/-- The accumulated int32 prediction value at sample `n`: the rounding bias
`1 << (shift - 1)` plus the partial tap sum; during ramp-up (`n < order`)
only the `n` taps with valid history contribute, matching the two loops of
`LPC_Predict` / `LPC_Synthesize`. -/
def lpcPredictValue (x coef : ℕ → ℤ) (order sh n : ℕ) : ℤ :=
  wrap32 ((2 : ℤ) ^ (sh - 1) + ∑ i ∈ Finset.range (min n order), coef i * x (n - i - 1))

/-- The residual written by `LPC_Predict` at sample `n`.  When `order > 0`
sample `0` is left as the plain copy of the input; when `order = 0` the
steady-state loop starts at sample `0`. -/
def lpcResidualAt (x coef : ℕ → ℤ) (order sh n : ℕ) : ℤ :=
  if n = 0 ∧ 0 < order then x 0
  else wrap32 (x n + sar32 (lpcPredictValue x coef order sh n) sh)

/-- `LPC_Predict` from `lpc.c`: `InvalidArgument` (`none`) when `shift = 0`,
otherwise the residual block. -/
def LPC_Predict (data coef : List ℤ) (sh : ℕ) : Option (List ℤ) :=
  if sh = 0 then none
  else some ((List.range data.length).map fun n =>
    lpcResidualAt (fun i => data.getD i 0) (fun i => coef.getD i 0) coef.length sh n)

/-- The sample reconstructed in place by `LPC_Synthesize` at index `n`; the
prediction reads the already-reconstructed history. -/
def lpcSynthAt (r coef : ℕ → ℤ) (order sh : ℕ) : ℕ → ℤ
  | n =>
    if n = 0 ∧ 0 < order then r 0
    else wrap32 (r n - sar32 (wrap32 ((2 : ℤ) ^ (sh - 1) +
      ∑ i ∈ (Finset.range (min n order)).attach,
        coef i.1 * lpcSynthAt r coef order sh (n - i.1 - 1))) sh)
termination_by n => n
decreasing_by
  have hi := Finset.mem_range.mp i.2
  have : i.1 < n := lt_of_lt_of_le hi (min_le_left _ _)
  omega

/-- `LPC_Synthesize` from `lpc.c`: `InvalidArgument` (`none`) when
`shift = 0`, otherwise the in-place reconstructed block. -/
def LPC_Synthesize (data coef : List ℤ) (sh : ℕ) : Option (List ℤ) :=
  if sh = 0 then none
  else some ((List.range data.length).map fun n =>
    lpcSynthAt (fun i => data.getD i 0) (fun i => coef.getD i 0) coef.length sh n)

theorem lpcSynthAt_def (r coef : ℕ → ℤ) (order sh n : ℕ) :
    lpcSynthAt r coef order sh n =
      if n = 0 ∧ 0 < order then r 0
      else wrap32 (r n - sar32 (wrap32 ((2 : ℤ) ^ (sh - 1) +
        ∑ i ∈ Finset.range (min n order),
          coef i * lpcSynthAt r coef order sh (n - i - 1))) sh) := by
  rw [lpcSynthAt]
  congr 1
  rw [← Finset.sum_attach (Finset.range (min n order))
    (fun i => coef i * lpcSynthAt r coef order sh (n - i - 1))]

theorem lpcSynthAt_congr (coef : ℕ → ℤ) (order sh : ℕ) :
    ∀ (n : ℕ) (r r' : ℕ → ℤ), (∀ i ≤ n, r i = r' i) →
      lpcSynthAt r coef order sh n = lpcSynthAt r' coef order sh n := by
  intro n
  induction n using Nat.strong_induction_on with
  | _ n ih =>
    intro r r' hagree
    rw [lpcSynthAt_def, lpcSynthAt_def]
    by_cases h0 : n = 0 ∧ 0 < order
    · simp only [h0, if_true]
      exact hagree 0 (Nat.zero_le _)
    · simp only [h0, if_false]
      rw [hagree n le_rfl]
      have hs : ∑ i ∈ Finset.range (min n order),
            coef i * lpcSynthAt r coef order sh (n - i - 1) =
          ∑ i ∈ Finset.range (min n order),
            coef i * lpcSynthAt r' coef order sh (n - i - 1) := by
        apply Finset.sum_congr rfl
        intro i hi
        have hi' : i < n := lt_of_lt_of_le (Finset.mem_range.mp hi) (min_le_left _ _)
        rw [ih (n - i - 1) (by omega) r r' (fun j hj => hagree j (by omega))]
      rw [hs]

/-- Synthesizing the predicted residual stream reconstructs the original
int32 samples exactly, index by index. -/
theorem lpcSynthAt_lpcResidualAt (x coef : ℕ → ℤ) (order sh : ℕ) :
    ∀ n : ℕ, (∀ i ≤ n, inInt32 (x i)) →
      lpcSynthAt (fun m => lpcResidualAt x coef order sh m) coef order sh n = x n := by
  intro n
  induction n using Nat.strong_induction_on with
  | _ n ih =>
    intro hin
    rw [lpcSynthAt_def]
    by_cases h0 : n = 0 ∧ 0 < order
    · simp only [h0, if_true]
      unfold lpcResidualAt
      simp [h0]
    · simp only [h0, if_false]
      have hsum : ∑ i ∈ Finset.range (min n order),
          coef i * lpcSynthAt (fun m => lpcResidualAt x coef order sh m) coef order sh
            (n - i - 1) =
          ∑ i ∈ Finset.range (min n order), coef i * x (n - i - 1) := by
        apply Finset.sum_congr rfl
        intro i hi
        have hi' : i < n := lt_of_lt_of_le (Finset.mem_range.mp hi) (min_le_left _ _)
        rw [ih (n - i - 1) (by omega) (fun j hj => hin j (by omega))]
      rw [hsum]
      have hres : lpcResidualAt x coef order sh n =
          wrap32 (x n + sar32 (lpcPredictValue x coef order sh n) sh) := by
        unfold lpcResidualAt
        simp [h0]
      rw [hres]
      unfold lpcPredictValue
      rw [wrap32_sub_left]
      have : x n + sar32 (wrap32 ((2 : ℤ) ^ (sh - 1) +
          ∑ i ∈ Finset.range (min n order), coef i * x (n - i - 1))) sh -
          sar32 (wrap32 ((2 : ℤ) ^ (sh - 1) +
          ∑ i ∈ Finset.range (min n order), coef i * x (n - i - 1))) sh = x n := by ring
      rw [this]
      exact wrap32_eq_self (hin n le_rfl)

theorem residualListGetD (x coef : List ℤ) (sh : ℕ) (i : ℕ) (hi : i < x.length) :
    ((List.range x.length).map fun n =>
      lpcResidualAt (fun j => x.getD j 0) (fun j => coef.getD j 0) coef.length sh n).getD i 0 =
    lpcResidualAt (fun j => x.getD j 0) (fun j => coef.getD j 0) coef.length sh i := by
  rw [List.getD_eq_getElem?_getD]
  simp [List.getElem?_range, hi]

/-- C1: for every signed 32-bit sample vector, every coefficient vector and
every `shift > 0`, `LPC_Synthesize` applied to the residual produced by
`LPC_Predict` with the same `(coef, shift)` returns the input bit for bit
(32-bit wraparound arithmetic). -/
theorem c1_predict_synthesize_identity (x coef : List ℤ) (sh : ℕ)
    (hs : 0 < sh) (hx : ∀ z ∈ x, inInt32 z) :
    ∃ r, LPC_Predict x coef sh = some r ∧ LPC_Synthesize r coef sh = some x := by
  have hs' : sh ≠ 0 := Nat.pos_iff_ne_zero.mp hs
  unfold LPC_Predict LPC_Synthesize
  rw [if_neg hs']
  refine ⟨_, rfl, ?_⟩
  rw [if_neg hs']
  congr 1
  simp only [List.length_map, List.length_range]
  apply List.ext_getElem
  · simp
  · intro n h1 h2
    simp only [List.getElem_map, List.getElem_range]
    have hxin : ∀ i ≤ n, inInt32 (x.getD i 0) := by
      intro i hile
      have hilt : i < x.length := by
        simp only [List.length_map, List.length_range] at h1
        omega
      rw [List.getD_eq_getElem x 0 hilt]
      exact hx _ (List.getElem_mem hilt)
    have hn : n < x.length := by
      simp only [List.length_map, List.length_range] at h1
      omega
    rw [lpcSynthAt_congr (fun j => coef.getD j 0) coef.length sh n _
        (fun m => lpcResidualAt (fun j => x.getD j 0) (fun j => coef.getD j 0)
          coef.length sh m)
        (fun i hile => residualListGetD x coef sh i (by omega))]
    rw [lpcSynthAt_lpcResidualAt _ _ _ _ n hxin]
    exact List.getD_eq_getElem x 0 hn

/-- Witness for C1 at the spec scenario `x = [100, 200, 300, 400, 500]`,
`c = [0x4000, -0x1000]`, `shift = 14`. -/
theorem c1_witness :
    0 < 14 ∧ (∀ z ∈ [(100 : ℤ), 200, 300, 400, 500], inInt32 z) ∧
    ∃ r, LPC_Predict [(100 : ℤ), 200, 300, 400, 500] [(0x4000 : ℤ), -0x1000] 14 = some r ∧
      LPC_Synthesize r [(0x4000 : ℤ), -0x1000] 14 = some [(100 : ℤ), 200, 300, 400, 500] :=
  ⟨by norm_num, by decide,
    c1_predict_synthesize_identity _ _ _ (by norm_num) (by decide)⟩

/-- C4: the forward M/S transform followed by the inverse L/R transform is
the identity on every pair of equal-length signed 32-bit channels. -/
theorem c4_ms_lr_roundtrip :
    ∀ (l r : List ℤ), l.length = r.length →
      (∀ z ∈ l, inInt32 z) → (∀ z ∈ r, inInt32 z) →
      LINNEUtility_LRConversion (LINNEUtility_MSConversion l r).1
        (LINNEUtility_MSConversion l r).2 = (l, r) := by
  intro l
  induction l with
  | nil =>
    intro r hlen _ _
    cases r with
    | nil => rfl
    | cons b rs => simp at hlen
  | cons a ls ih =>
    intro r hlen hl hr
    cases r with
    | nil => simp at hlen
    | cons b rs =>
      have ha : inInt32 a := hl a (by simp)
      have hb : inInt32 b := hr b (by simp)
      have ihr := ih rs (by simpa using hlen)
        (fun z hz => hl z (by simp [hz])) (fun z hz => hr z (by simp [hz]))
      have hpair := lrSample_msSample ha hb
      unfold LINNEUtility_MSConversion LINNEUtility_LRConversion at ihr ⊢
      simp only [List.zipWith_cons_cons, Prod.mk.injEq, List.cons.injEq] at ihr ⊢
      exact ⟨⟨congrArg Prod.fst hpair, ihr.1⟩, congrArg Prod.snd hpair, ihr.2⟩

/-- Witness for C4 at the spec scenario `L = [10, -3, 7]`, `R = [4, -3, 9]`. -/
theorem c4_witness :
    ([(10 : ℤ), -3, 7].length = [(4 : ℤ), -3, 9].length) ∧
    (∀ z ∈ [(10 : ℤ), -3, 7], inInt32 z) ∧ (∀ z ∈ [(4 : ℤ), -3, 9], inInt32 z) ∧
    LINNEUtility_LRConversion
      (LINNEUtility_MSConversion [(10 : ℤ), -3, 7] [(4 : ℤ), -3, 9]).1
      (LINNEUtility_MSConversion [(10 : ℤ), -3, 7] [(4 : ℤ), -3, 9]).2 =
      ([(10 : ℤ), -3, 7], [(4 : ℤ), -3, 9]) :=
  ⟨rfl, by decide, by decide, c4_ms_lr_roundtrip _ _ rfl (by decide) (by decide)⟩

/-- C6: preemphasis followed by deemphasis with the same `coef` and the same
carried `prev` state is the identity on any signed 32-bit block, and both
filters leave the state at the last original sample. -/
theorem c6_preem_deem_roundtrip (sh : ℕ) (coef prev : ℤ) (buf : List ℤ)
    (hin : ∀ z ∈ buf, inInt32 z) :
    LINNEPreemphasisFilter_Deemphasis sh coef prev
      (LINNEPreemphasisFilter_Preemphasis sh coef prev buf).1 =
      (buf, buf.getLastD prev) := by
  unfold LINNEPreemphasisFilter_Deemphasis LINNEPreemphasisFilter_Preemphasis
  simp only
  rw [deemAux_preemAux sh coef buf prev hin]

/-- Witness for C6 at a concrete block, coefficient and carried state. -/
theorem c6_witness :
    (∀ z ∈ [(100 : ℤ), -50, 25, 7], inInt32 z) ∧
    LINNEPreemphasisFilter_Deemphasis 5 13 3
      (LINNEPreemphasisFilter_Preemphasis 5 13 3 [(100 : ℤ), -50, 25, 7]).1 =
      ([(100 : ℤ), -50, 25, 7], [(100 : ℤ), -50, 25, 7].getLastD 3) :=
  ⟨by decide, c6_preem_deem_roundtrip 5 13 3 _ (by decide)⟩

/-- C8 counterexample: under `uint32_t` wraparound the round-up idiom maps
`0` to `0`, not to `1` as the claim states. -/
theorem c8_counterexample :
    LINNEUtility_RoundUp2PoweredSoft 0 = 0 ∧ (0 : ℕ) ≠ 1 := by
  constructor
  · decide
  · decide

/-- C8 amended: `RoundUpPow2 0 = 0` (the standard idiom wraps at zero under
32-bit unsigned arithmetic); the remaining claimed values hold as stated. -/
theorem c8_amended :
    LINNEUtility_RoundUp2PoweredSoft 0 = 0 ∧
    LINNEUtility_RoundUp2PoweredSoft 1 = 1 ∧
    LINNEUtility_RoundUp2PoweredSoft 5 = 8 ∧
    LINNEUtility_RoundUp2PoweredSoft (2 ^ 31) = 2 ^ 31 :=
  ⟨by decide, by decide, by decide, by decide⟩

/-! ## `lpc.c`: doubles modelled as exact rationals -/

/-- `FLT_EPSILON = 2^-23`, the zero-power guard threshold of the
Levinson-Durbin recursion and the auxiliary-function method. -/
def fltEpsilon : ℚ := 1 / 2 ^ 23

/-- `FLT_MAX = (2 - 2^-23) * 2^127`, the initial previous objective value of
the auxiliary-function iteration. -/
def fltMax : ℚ := 2 ^ 128 - 2 ^ 104

/-- `LPC_Round`: round half away from zero. -/
def LPC_Round (d : ℚ) : ℤ := if 0 ≤ d then ⌊d + 1 / 2⌋ else -⌊-d + 1 / 2⌋

/-- The window kinds of `LPCWindowType` used by `LPC_ApplyWindow` (the
header defining the enum is not among the sources; the three kinds the
code switches over are modelled). -/
inductive LPCWindowType
  | rectangular
  | sin
  | welch
deriving DecidableEq

/-- The factor `4.0 * pow(num_samples - 1, -2.0)` of the Welch window. -/
def welchDivisor (n : ℕ) : ℚ := 4 / ((n - 1 : ℕ) : ℚ) ^ 2

/-- `LPC_ApplyWindow`.  `prevOut` is the prior content of the output buffer:
the Welch branch loops over `smpl < num_samples >> 1`, writing only
`output[smpl]` and `output[num_samples - 1 - smpl]`, so for an odd-length
block the middle output sample is never written and keeps its prior value.
The sine weight `sin(pi * n / (N - 1))` is irrational and is supplied by
the oracle `sinv`. -/
def LPC_ApplyWindow (wt : LPCWindowType) (sinv : ℕ → ℚ) (prevOut input : List ℚ) :
    List ℚ :=
  match wt with
  | .rectangular => input
  | .sin => (List.range input.length).map fun n => input.getD n 0 * sinv n
  | .welch =>
    let N := input.length
    (List.range N).map fun n =>
      if n < N / 2 then
        input.getD n 0 * (welchDivisor N * (n : ℚ) * ((N - 1 - n : ℕ) : ℚ))
      else if N - 1 - n < N / 2 then
        input.getD n 0 * (welchDivisor N * ((N - 1 - n : ℕ) : ℚ) * (n : ℚ))
      else prevOut.getD n 0

/-! ## `lpc.c`: autocorrelation (blocked form, `uint32_t` loop bounds) -/

/-- The tail-loop iteration count `num_samples - Llag2 - lag` of
`LPC_CalculateAutoCorrelation`, in `uint32_t` arithmetic; for
`lag > num_samples` it underflows to a value near `2^32`. -/
def autoCorrTailCount (N Llag2 lag : ℕ) : ℕ := u32sub (u32sub N Llag2) lag

/-- `auto_corr[lag]` as computed by the blocked loops of
`LPC_CalculateAutoCorrelation` over the first `N` samples of `d`. -/
def LPC_AutoCorrElem (d : List ℚ) (N lag : ℕ) : ℚ :=
  if lag = 0 then ∑ i ∈ Finset.range N, d.getD i 0 * d.getD i 0
  else
    let lag2 := 2 * lag
    let L := if 3 * lag < N then 1 + (N - 3 * lag) / lag2 else 0
    let Llag2 := L * lag2
    (∑ i ∈ Finset.range lag, ∑ t ∈ Finset.range L,
      d.getD (t * lag2 + lag + i) 0 *
        (d.getD (t * lag2 + i) 0 + d.getD (t * lag2 + lag2 + i) 0)) +
    ∑ i ∈ Finset.range (autoCorrTailCount N Llag2 lag),
      d.getD (Llag2 + lag + i) 0 * d.getD (Llag2 + i) 0

/-- The naive biased sample autocorrelation
`r[lag] = sum_{i < N - lag} d[i] * d[i + lag]`. -/
def autoCorrNaive (d : List ℚ) (N lag : ℕ) : ℚ :=
  ∑ i ∈ Finset.range (N - lag), d.getD i 0 * d.getD (i + lag) 0

theorem sum_range_add_split {M : Type*} [AddCommMonoid M] (f : ℕ → M) (a b : ℕ) :
    ∑ i ∈ Finset.range (a + b), f i =
      (∑ i ∈ Finset.range a, f i) + ∑ i ∈ Finset.range b, f (a + i) := by
  induction b with
  | zero => simp
  | succ n ih => rw [Nat.add_succ, Finset.sum_range_succ, ih, Finset.sum_range_succ, add_assoc]

theorem autoCorrBlockedMain (d : List ℚ) (lag : ℕ) (L : ℕ) :
    ∑ t ∈ Finset.range L, ∑ i ∈ Finset.range lag,
        d.getD (t * (2 * lag) + lag + i) 0 *
          (d.getD (t * (2 * lag) + i) 0 + d.getD (t * (2 * lag) + 2 * lag + i) 0) =
      ∑ j ∈ Finset.range (L * (2 * lag)), d.getD j 0 * d.getD (j + lag) 0 := by
  induction L with
  | zero => simp
  | succ n ih =>
    rw [Finset.sum_range_succ, ih, Nat.succ_mul n (2 * lag), sum_range_add_split]
    congr 1
    have h2 : 2 * lag = lag + lag := by ring
    rw [h2, sum_range_add_split, ← Finset.sum_add_distrib]
    apply Finset.sum_congr rfl
    intro i _
    have e1 : n * (lag + lag) + i + lag = n * (lag + lag) + lag + i := by ring
    have e2 : n * (lag + lag) + (lag + i) = n * (lag + lag) + lag + i := by ring
    have e3 : n * (lag + lag) + lag + i + lag = n * (lag + lag) + (lag + lag) + i := by ring
    rw [e1, e2, e3]
    ring

/-- On a block with `lag ≤ N < 2^32` the blocked computation of
`LPC_CalculateAutoCorrelation` agrees with the naive biased sample
autocorrelation. -/
theorem autoCorrElem_eq_naive (d : List ℚ) (N lag : ℕ) (h : lag ≤ N) (hN : N < 2 ^ 32) :
    LPC_AutoCorrElem d N lag = autoCorrNaive d N lag := by
  rcases Nat.eq_zero_or_pos lag with h0 | hpos
  · subst h0
    unfold LPC_AutoCorrElem autoCorrNaive
    simp
  · unfold LPC_AutoCorrElem autoCorrNaive
    rw [if_neg (Nat.pos_iff_ne_zero.mp hpos)]
    simp only
    set L := if 3 * lag < N then 1 + (N - 3 * lag) / (2 * lag) else 0 with hL
    have hLlag2 : L * (2 * lag) + lag ≤ N := by
      by_cases hc : 3 * lag < N
      · rw [hL, if_pos hc]
        have hdiv : (N - 3 * lag) / (2 * lag) * (2 * lag) ≤ N - 3 * lag :=
          Nat.div_mul_le_self _ _
        have : (1 + (N - 3 * lag) / (2 * lag)) * (2 * lag) =
            2 * lag + (N - 3 * lag) / (2 * lag) * (2 * lag) := by ring
        omega
      · rw [hL, if_neg hc]
        omega
    have htail : autoCorrTailCount N (L * (2 * lag)) lag = N - L * (2 * lag) - lag := by
      unfold autoCorrTailCount
      rw [u32sub_eq_sub (by omega) hN, u32sub_eq_sub (by omega) (by omega)]
    rw [htail]
    have hsplit : N - lag = L * (2 * lag) + (N - L * (2 * lag) - lag) := by omega
    rw [hsplit, sum_range_add_split, Finset.sum_comm, autoCorrBlockedMain]
    congr 1
    apply Finset.sum_congr rfl
    intro i _
    have e1 : L * (2 * lag) + i + lag = L * (2 * lag) + lag + i := by ring
    rw [e1]
    ring

/-- C7 (the code evaluated at the failing input): on the odd-length block
`x = [1, 1, 1]` (`N = 3`) with stale output-buffer contents `[7, 7, 7]`,
the Welch window writes `y[0]` and `y[2]` but never writes the middle sample
`y[1]`, which keeps the stale value `7`; the claimed formula
`y[n] = x[n] * (4 n (N-1-n) / (N-1)^2)` gives `1` there. -/
theorem c7_welch_middle_unwritten :
    LPC_ApplyWindow LPCWindowType.welch (fun _ => 0) [(7 : ℚ), 7, 7] [(1 : ℚ), 1, 1] =
      [0, 7, 0] ∧
    (1 : ℚ) * (4 * 1 * ((3 : ℚ) - 1 - 1) / ((3 : ℚ) - 1) ^ 2) = 1 := by
  constructor
  · norm_num [LPC_ApplyWindow, welchDivisor, List.range_succ]
  · norm_num

/-! ## `lpc.c`: coefficient quantizer -/

/-- The running maximum of coefficient absolute values
(the `max` loop of `LPC_QuantizeCoefficients`, initial value `0.0`). -/
def maxAbsCoef (c : List ℚ) : ℚ := c.foldl (fun m x => max m |x|) 0

/-- Floor of the base-2 logarithm by repeated halving (fuel-driven so that
it unfolds structurally). -/
def natLog2Aux : ℕ → ℕ → ℕ
  | 0, _ => 0
  | fuel + 1, n => if n ≤ 1 then 0 else natLog2Aux fuel (n / 2) + 1

/-- `natLog2 n = floor(log2 n)` for `n ≥ 1`. -/
def natLog2 (n : ℕ) : ℕ := natLog2Aux n n

/-- The exponent returned by `frexp` for a positive rational `q = n / d`:
the unique `e` with `q = m * 2^e`, `m` in `[1/2, 1)`.  Computed from the
floor logarithms of numerator and denominator: with
`k = floor(log2 n) - floor(log2 d)` one has `2^(k-1) < q < 2^(k+1)`, so the
exponent is `k + 1` when `2^k ≤ q` and `k` otherwise (the comparison is on
cross-multiplied integers). -/
def frexpExp (q : ℚ) : ℤ :=
  let n := q.num.natAbs
  let d := q.den
  let k : ℤ := (natLog2 n : ℤ) - (natLog2 d : ℤ)
  if 0 ≤ k then (if 2 ^ k.toNat * d ≤ n then k + 1 else k)
  else (if d ≤ 2 ^ (-k).toNat * n then k + 1 else k)

/-- The saturation of a quantized coefficient to `[-qmax, qmax - 1]`. -/
def quantClamp (q qmax : ℤ) : ℤ :=
  if q ≥ qmax then qmax - 1 else if q < -qmax then -qmax else q

/-- The tail-to-head quantization loop of `LPC_QuantizeCoefficients`: the
coefficient list is processed from its last element toward its head,
threading the accumulated quantization error. -/
def quantLoop (rshift : ℕ) (qmax : ℤ) : List ℚ → ℚ → List ℤ × ℚ
  | [], qerr => ([], qerr)
  | c :: rest, qerr0 =>
    let pr := quantLoop rshift qmax rest qerr0
    let e := pr.2 + c * 2 ^ rshift
    let q := quantClamp (LPC_Round e) qmax
    (q :: pr.1, e - q)

/-- `LPC_QuantizeCoefficients`: `none` models `InvalidArgument`
(`nbits_precision == 0`; null pointers have no model); otherwise the
integer coefficients together with the right-shift amount.  The `uint32_t`
cast of `nbits_precision - 1 - ndigit` is kept exact. -/
def LPC_QuantizeCoefficients (c : List ℚ) (p : ℕ) : Option (List ℤ × ℕ) :=
  if p = 0 then none
  else
    let qmax : ℤ := 2 ^ (p - 1)
    let m := maxAbsCoef c
    if m ≤ 1 / 2 ^ (p - 1) then some (List.replicate c.length 0, p)
    else
      let ndigit := frexpExp m
      let rshift := ((((p : ℤ) - 1) - ndigit) % 2 ^ 32).toNat
      some ((quantLoop rshift qmax c 0).1, rshift)

theorem quantLoop_mem_range (rshift : ℕ) (qmax : ℤ) (hq : 1 ≤ qmax) :
    ∀ (c : List ℚ) (qerr : ℚ), ∀ q ∈ (quantLoop rshift qmax c qerr).1,
      -qmax ≤ q ∧ q ≤ qmax - 1 := by
  intro c
  induction c with
  | nil =>
    intro qerr q hmem
    simp [quantLoop] at hmem
  | cons a rest ih =>
    intro qerr q hmem
    rw [quantLoop] at hmem
    rcases List.mem_cons.mp hmem with h | h
    · subst h
      unfold quantClamp
      split_ifs <;> omega
    · exact ih qerr q h

/-- C3 counterexample: quantizing `c = [-0.9]` with `p = 2` bits yields the
integer coefficient `-2` with shift `1`; its absolute value equals
`2^(p-1) = 2` and is not strictly below it as the claim states. -/
theorem c3_counterexample :
    LPC_QuantizeCoefficients [-(9 : ℚ) / 10] 2 = some ([-2], 1) ∧
    ¬ (|(-2 : ℤ)| < 2 ^ (2 - 1)) := by
  constructor
  · have hmax : maxAbsCoef [-(9 : ℚ) / 10] = 9 / 10 := by
      simp [maxAbsCoef]
      norm_num
    have hfx : frexpExp (9 / 10) = 0 := by
      norm_num [frexpExp, natLog2, natLog2Aux]
    unfold LPC_QuantizeCoefficients
    dsimp only
    rw [hmax, hfx]
    norm_num [quantLoop, quantClamp, LPC_Round]
  · decide

/-- C3 amended: for `p > 0`, if `max |c_i| ≤ 2^(-(p-1))` the quantizer
returns all-zero coefficients with `shift = p`; and every integer
coefficient it ever outputs lies in the asymmetric saturating range
`[-2^(p-1), 2^(p-1) - 1]` (so `-2^(p-1)` is attainable and only the
positive side is strict). -/
theorem c3_quantizer_amended (c : List ℚ) (p : ℕ) (hp : 0 < p) :
    (maxAbsCoef c ≤ 1 / 2 ^ (p - 1) →
      LPC_QuantizeCoefficients c p = some (List.replicate c.length 0, p)) ∧
    (∀ qs rs, LPC_QuantizeCoefficients c p = some (qs, rs) →
      ∀ q ∈ qs, -2 ^ (p - 1) ≤ q ∧ q ≤ 2 ^ (p - 1) - 1) := by
  have hp' : p ≠ 0 := Nat.pos_iff_ne_zero.mp hp
  have hqmax : (1 : ℤ) ≤ 2 ^ (p - 1) := by
    have h : (0 : ℤ) < 2 ^ (p - 1) := by positivity
    omega
  unfold LPC_QuantizeCoefficients
  rw [if_neg hp']
  dsimp only
  constructor
  · intro hsmall
    rw [if_pos hsmall]
  · intro qs rs hsome q hmem
    by_cases hsmall : maxAbsCoef c ≤ 1 / 2 ^ (p - 1)
    · rw [if_pos hsmall] at hsome
      simp only [Option.some.injEq, Prod.mk.injEq] at hsome
      obtain ⟨hqs, _⟩ := hsome
      subst hqs
      have h0 := List.eq_of_mem_replicate hmem
      subst h0
      omega
    · rw [if_neg hsmall] at hsome
      simp only [Option.some.injEq, Prod.mk.injEq] at hsome
      obtain ⟨hqs, _⟩ := hsome
      subst hqs
      exact quantLoop_mem_range _ _ hqmax c 0 q hmem

/-- Witness for the amended C3 at `c = [3/4, 1/4]`, `p = 4`. -/
theorem c3_witness :
    0 < 4 ∧
    ((maxAbsCoef [(3 : ℚ) / 4, 1 / 4] ≤ 1 / 2 ^ (4 - 1) →
       LPC_QuantizeCoefficients [(3 : ℚ) / 4, 1 / 4] 4 =
         some (List.replicate [(3 : ℚ) / 4, 1 / 4].length 0, 4)) ∧
     (∀ qs rs, LPC_QuantizeCoefficients [(3 : ℚ) / 4, 1 / 4] 4 = some (qs, rs) →
       ∀ q ∈ qs, -2 ^ (4 - 1) ≤ q ∧ q ≤ 2 ^ (4 - 1) - 1)) :=
  ⟨by norm_num, c3_quantizer_amended _ _ (by norm_num)⟩

/-! ## `lpc.c`: Levinson-Durbin recursion -/

/-- The `(a_vec, ek)` state after the initialization step of
`LPC_LevinsonDurbinRecursion`: `a = (1, -r1/r0, 0, ...)` and
`e = r0 + r1 * a1`. -/
def ldInit (r : ℕ → ℚ) : (ℕ → ℚ) × ℚ :=
  (fun i => if i = 0 then 1 else if i = 1 then -(r 1 / r 0) else 0,
   r 0 + r 1 * (-(r 1 / r 0)))

/-- One loop iteration (loop variable `k`) of the Levinson-Durbin
recursion: `gamma = (sum_{i ≤ k} a_i * r_{k+1-i}) / (-e)`, the coefficient
vector becomes `u + gamma * v` with `u = (1, a_1 .. a_k, 0)` and
`v = reverse u`, and the error power becomes `e * (1 - gamma^2)`.  Every
state reaching step `k` has `a_0 = 1` and `a_j = 0` for `j > k`, so `u`
is the state itself and `v i = a_{k+1-i}`. -/
def ldStep (r : ℕ → ℚ) (k : ℕ) (s : (ℕ → ℚ) × ℚ) : (ℕ → ℚ) × ℚ :=
  let g := (∑ i ∈ Finset.range (k + 1), s.1 i * r (k + 1 - i)) / (-s.2)
  (fun i => if i ≤ k + 1 then s.1 i + g * s.1 (k + 1 - i) else 0,
   s.2 * (1 - g * g))

/-- The Levinson-Durbin state after initialization followed by the loop
iterations `k = 1 .. m`. -/
def ldState (r : ℕ → ℚ) : ℕ → (ℕ → ℚ) × ℚ
  | 0 => ldInit r
  | m + 1 => ldStep r (m + 1) (ldState r m)

/-- The reflection coefficient `gamma` computed at loop iteration `k ≥ 1`. -/
def ldGamma (r : ℕ → ℚ) (k : ℕ) : ℚ :=
  (∑ i ∈ Finset.range (k + 1), (ldState r (k - 1)).1 i * r (k + 1 - i)) /
    (-(ldState r (k - 1)).2)

/-- The PARCOR coefficients written during the recursion: `parcor[0] = 0`,
`parcor[1] = r1/r0`, `parcor[k+1] = -gamma_k` for `k ≥ 1`. -/
def ldParcor (r : ℕ → ℚ) : ℕ → ℚ
  | 0 => 0
  | 1 => r 1 / r 0
  | k + 2 => -(ldGamma r (k + 1))

/-- `LPC_LevinsonDurbinRecursion`: if `|r 0| < FLT_EPSILON` the zero-power
guard fires and all outputs are zero; otherwise the recursion runs and
`(lpc_coef, parcor_coef)` (each of length `order + 1`) are produced. -/
def LPC_LevinsonDurbinRecursion (r : ℕ → ℚ) (order : ℕ) : List ℚ × List ℚ :=
  if |r 0| < fltEpsilon then
    (List.replicate (order + 1) 0, List.replicate (order + 1) 0)
  else
    (List.ofFn (n := order + 1) fun i => (ldState r (order - 1)).1 i,
     List.ofFn (n := order + 1) fun i => ldParcor r i)

/-! ## `lpc.c`: common coefficient-calculation pipeline and entry points -/

/-- The internal `LPCError` status type. -/
inductive LPCError
  | ok
  | ng
  | singularMatrix
  | invalidArgument
deriving DecidableEq

/-- The public `LPCApiResult` status type. -/
inductive LPCApiResult
  | ok
  | invalidArgument
  | exceedMaxOrder
  | exceedMaxNumSamples
  | failedToCalculate
deriving DecidableEq

/-- The autocorrelation of the windowed block as computed inside
`LPC_CalculateCoef` (the C code fills lags `0 .. coef_order`). -/
def LPC_CalcAutoCorr (sinv : ℕ → ℚ) (prevBuf data : List ℚ) (N : ℕ)
    (wt : LPCWindowType) : ℕ → ℚ :=
  fun lag => LPC_AutoCorrElem (LPC_ApplyWindow wt sinv prevBuf data) N lag

/-- `LPC_CalculateCoef`: apply the window, compute the autocorrelation,
fall back to all-zero coefficients when `num_samples < coef_order`
(the autocorrelation pass has already run at this point), otherwise run the
Levinson-Durbin recursion.  Returns the internal status and
`(lpc_coef, parcor_coef)`, each of length `coef_order + 1`. -/
def LPC_CalculateCoef (sinv : ℕ → ℚ) (prevBuf data : List ℚ) (N order : ℕ)
    (wt : LPCWindowType) : LPCError × (List ℚ × List ℚ) :=
  if N < order then
    (LPCError.ok, (List.replicate (order + 1) 0, List.replicate (order + 1) 0))
  else
    (LPCError.ok,
      LPC_LevinsonDurbinRecursion (LPC_CalcAutoCorr sinv prevBuf data N wt) order)

/-- `LPCCalculator_CalculateLPCCoefficients`: order bound check, sample
bound check, coefficient calculation; on success the caller receives
`lpc_coef[1 .. coef_order]`. -/
def LPCCalculator_CalculateLPCCoefficients (maxOrder maxNumSamples : ℕ)
    (sinv : ℕ → ℚ) (prevBuf data : List ℚ) (N order : ℕ) (wt : LPCWindowType) :
    LPCApiResult × List ℚ :=
  if order > maxOrder then (.exceedMaxOrder, [])
  else if N > maxNumSamples then (.exceedMaxNumSamples, [])
  else
    match LPC_CalculateCoef sinv prevBuf data N order wt with
    | (LPCError.ok, (lpc, _)) => (.ok, (lpc.drop 1).take order)
    | _ => (.failedToCalculate, [])

/-- C10 (the code evaluated at the failing input): with `max_order = 3`,
`max_num_samples = 16`, block `[1, 1]` (`num_samples = 2`) and
`coef_order = 3`, the entry point returns success with all-zero
coefficients under value semantics (the short-block fallback), but the
autocorrelation pass that runs first violates its own asserted
precondition `num_samples >= order`: at `lag = 3` the `uint32_t` tail-loop
bound `num_samples - L*lag2 - lag` underflows to `2^32 - 1`, far larger
than the 2-sample block, so the loop reads out of bounds before the
zeroing fallback is reached. -/
theorem c10_short_block_fallback :
    LPCCalculator_CalculateLPCCoefficients 3 16 (fun _ => 0) [] [1, 1] 2 3
      LPCWindowType.rectangular = (LPCApiResult.ok, [0, 0, 0]) ∧
    autoCorrTailCount 2 0 3 = 2 ^ 32 - 1 ∧ 2 < 2 ^ 32 - 1 := by
  refine ⟨?_, by decide, by norm_num⟩
  simp [LPCCalculator_CalculateLPCCoefficients, LPC_CalculateCoef, List.replicate]

/-! ## `lpc.c`: auxiliary-function (iteratively reweighted L1) method -/

/-- The forward residual `data[smpl] + sum_i a_i * data[smpl-i-1]` of the
auxiliary-function method (computed on the raw caller data, not the
windowed buffer). -/
def lpcafResidual (d : List ℚ) (a : ℕ → ℚ) (order smpl : ℕ) : ℚ :=
  d.getD smpl 0 + ∑ i ∈ Finset.range order, a i * d.getD (smpl - i - 1) 0

/-- The per-sample weight `1 / max(|residual|, 1e-6)`
(`LPCAF_RESIDUAL_EPSILON` regularization). -/
def lpcafInvResidual (d : List ℚ) (a : ℕ → ℚ) (order smpl : ℕ) : ℚ :=
  1 / max |lpcafResidual d a order smpl| (1 / 1000000)

/-- `LPCAF_CalculateCoefMatrixAndVector` (forward-residual form, the active
`#if 1` branch): the coefficient matrix, the right-hand-side vector and the
objective value normalized by the `uint32_t` difference
`num_samples - coef_order`.  The C code accumulates the upper triangle and
mirrors it; both entries equal the symmetric sum used here. -/
def LPCAF_CalculateCoefMatrixAndVector (d : List ℚ) (N : ℕ) (a : ℕ → ℚ)
    (order : ℕ) : (ℕ → ℕ → ℚ) × (ℕ → ℚ) × ℚ :=
  (fun i j => ∑ smpl ∈ Finset.Ico order N,
      d.getD (smpl - i - 1) 0 * d.getD (smpl - j - 1) 0 * lpcafInvResidual d a order smpl,
   fun i => -∑ smpl ∈ Finset.Ico order N,
      d.getD smpl 0 * d.getD (smpl - i - 1) 0 * lpcafInvResidual d a order smpl,
   (∑ smpl ∈ Finset.Ico order N, |lpcafResidual d a order smpl|) /
     ((u32sub N order : ℕ) : ℚ))

/-- The column pass of `LPC_CholeskyDecomposition`: after processing
columns `0 .. i-1` the strictly-lower factor entries `G j k` (`k < i`,
`k < j`) and the cached reciprocal square roots `dinv k` are available.
`pow(sum, -0.5)` is irrational and is supplied by the oracle `rsqrt`; a
pivot `sum ≤ 0` aborts with `SingularMatrix` (`none`). -/
def cholColumns (rsqrt : ℚ → ℚ) (A : ℕ → ℕ → ℚ) : ℕ → Option ((ℕ → ℕ → ℚ) × (ℕ → ℚ))
  | 0 => some (fun _ _ => 0, fun _ => 0)
  | i + 1 =>
    match cholColumns rsqrt A i with
    | none => none
    | some (G, dinv) =>
      let pivot := A i i - ∑ k ∈ Finset.range i, G i k * G i k
      if pivot ≤ 0 then none
      else
        let di := rsqrt pivot
        some (fun j k =>
            if k = i ∧ i < j then
              (A i j - ∑ m ∈ Finset.range i, G i m * G j m) * di
            else G j k,
          fun k => if k = i then di else dinv k)

/-- Forward substitution `y_i = (b_i - sum_{j<i} G i j * y_j) * dinv i`. -/
def cholForward (G : ℕ → ℕ → ℚ) (dinv : ℕ → ℚ) (b : ℕ → ℚ) : ℕ → ℚ
  | i =>
    (b i - ∑ j ∈ (Finset.range i).attach, G i j.1 * cholForward G dinv b j.1) * dinv i
termination_by i => i
decreasing_by exact Finset.mem_range.mp j.2

/-- Backward substitution
`x_i = (y_i - sum_{i<j<dim} G j i * x_j) * dinv i`. -/
def cholBackward (G : ℕ → ℕ → ℚ) (dinv : ℕ → ℚ) (dim : ℕ) (y : ℕ → ℚ) : ℕ → ℚ
  | i =>
    (y i - ∑ j ∈ (Finset.Ico (i + 1) dim).attach,
      G j.1 i * cholBackward G dinv dim y j.1) * dinv i
termination_by i => dim - i
decreasing_by
  have hj := Finset.mem_Ico.mp j.2
  omega

/-- `LPC_CholeskyDecomposition`: factor the matrix, then forward- and
back-substitute with the cached reciprocals. -/
def LPC_CholeskyDecomposition (rsqrt : ℚ → ℚ) (A : ℕ → ℕ → ℚ) (dim : ℕ)
    (b : ℕ → ℚ) : Option (ℕ → ℚ) :=
  match cholColumns rsqrt A dim with
  | none => none
  | some (G, dinv) => some (cholBackward G dinv dim (cholForward G dinv b))

/-- The iteration loop of `LPC_CalculateCoefAF`: build the matrix and
vector from the current coefficients, solve by Cholesky (a singular matrix
yields `none` and the caller zeroes the coefficients), then test
convergence `|prev_obj - obj| < obj_epsilon`; the solution replaces the
coefficient vector before the convergence break, as in the C loop. -/
def lpcafLoop (rsqrt : ℚ → ℚ) (d : List ℚ) (N order : ℕ) (eps : ℚ) :
    ℕ → (ℕ → ℚ) → ℚ → Option (ℕ → ℚ)
  | 0, a, _ => some a
  | itr + 1, a, prevObj =>
    let mvr := LPCAF_CalculateCoefMatrixAndVector d N a order
    match LPC_CholeskyDecomposition rsqrt mvr.1 order mvr.2.1 with
    | none => none
    | some a2 =>
      if |prevObj - mvr.2.2| < eps then some a2
      else lpcafLoop rsqrt d N order eps itr a2 mvr.2.2

/-- `LPC_CalculateCoefAF`: Levinson-Durbin initialization, the silent-block
guard on `auto_corr[0]`, then the reweighted iteration; a singular matrix
yields all-zero coefficients with a success status.  Returns the internal
status and the `coef_order`-long prefix of `lpc_coef` that the entry point
copies out. -/
def LPC_CalculateCoefAF (rsqrt : ℚ → ℚ) (sinv : ℕ → ℚ) (prevBuf data : List ℚ)
    (N order maxIter : ℕ) (eps : ℚ) (wt : LPCWindowType) : LPCError × List ℚ :=
  match LPC_CalculateCoef sinv prevBuf data N order wt with
  | (LPCError.ok, (lpc, _)) =>
    if |LPC_CalcAutoCorr sinv prevBuf data N wt 0| < fltEpsilon then
      (LPCError.ok, List.replicate order 0)
    else
      match lpcafLoop rsqrt data N order eps maxIter
          (fun i => lpc.getD (i + 1) 0) fltMax with
      | none => (LPCError.ok, List.replicate order 0)
      | some a => (LPCError.ok, List.ofFn (n := order) fun i => a i)
  | (e, _) => (e, [])

/-- `LPCCalculator_CalculateLPCCoefficientsAF`: checks only the order bound
against the calculator (`max_num_samples` is never consulted by this entry
point), then runs the auxiliary-function method with
`obj_epsilon = 1e-8`. -/
def LPCCalculator_CalculateLPCCoefficientsAF (maxOrder maxNumSamples : ℕ)
    (rsqrt : ℚ → ℚ) (sinv : ℕ → ℚ) (prevBuf data : List ℚ)
    (N order maxIter : ℕ) (wt : LPCWindowType) : LPCApiResult × List ℚ :=
  if order > maxOrder then (.exceedMaxOrder, [])
  else
    match LPC_CalculateCoefAF rsqrt sinv prevBuf data N order maxIter
        (1 / 100000000) wt with
    | (LPCError.ok, lpc) => (.ok, lpc)
    | _ => (.failedToCalculate, [])

/-! ## `lpc.c`: Burg method (covariance form, the active `#if 1` branch) -/

/-- The auto-covariance matrix of `LPC_CalculateCoefBurg`: row `i` holds
the autocorrelation of the block shortened to `num_samples - i`
(`uint32_t` subtraction), and the lower triangle mirrors the upper, so
`cov i j` is the lag `|i - j|` autocorrelation over
`num_samples - min i j` samples. -/
def burgCov (d : List ℚ) (N : ℕ) : ℕ → ℕ → ℚ :=
  fun i j => LPC_AutoCorrElem d (u32sub N (min i j)) (max i j - min i j)

/-- `Fk + Bk` of the Burg recursion at step `k`: the diagonal terms plus
twice the upper off-diagonal terms (symmetry). -/
def burgFkpBk (cov : ℕ → ℕ → ℚ) (a : ℕ → ℚ) (k : ℕ) : ℚ :=
  (∑ i ∈ Finset.range (k + 1),
    a i * a i * (cov i i + cov (k + 1 - i) (k + 1 - i))) +
  2 * ∑ i ∈ Finset.range (k + 1), ∑ j ∈ Finset.Ico (i + 1) (k + 1),
    a i * a j * (cov i j + cov (k + 1 - i) (k + 1 - j))

/-- `Ck` of the Burg recursion at step `k`. -/
def burgCk (cov : ℕ → ℕ → ℚ) (a : ℕ → ℚ) (k : ℕ) : ℚ :=
  ∑ i ∈ Finset.range (k + 1), ∑ j ∈ Finset.range (k + 1),
    a i * a j * cov i (k + 1 - j)

/-- The pairwise coefficient update
`(a_i, a_{k+1-i}) <- (a_i + mu * a_{k+1-i}, mu * a_i + a_{k+1-i})` for
`i ≤ (k+1)/2` (when `k + 1` is even the middle index pairs with itself and
both assignments agree). -/
def burgUpdate (a : ℕ → ℚ) (mu : ℚ) (k : ℕ) : ℕ → ℚ :=
  fun idx =>
    if idx ≤ (k + 1) / 2 then a idx + mu * a (k + 1 - idx)
    else if idx ≤ k + 1 ∧ k + 1 - idx ≤ (k + 1) / 2 then
      mu * a (k + 1 - idx) + a idx
    else a idx

/-- The order recursion of `LPC_CalculateCoefBurg`.  The C code computes
`mu = -2 Ck / (Fk + Bk)` in doubles: a zero denominator produces a
non-finite value that poisons every later update (and falsifies the
assertion `|mu| <= 1`); this is modelled by `none`. -/
def burgLoop (cov : ℕ → ℕ → ℚ) : ℕ → ℕ → (ℕ → ℚ) → Option (ℕ → ℚ)
  | _, 0, a => some a
  | k, rem + 1, a =>
    let F := burgFkpBk cov a k
    if F = 0 then none
    else burgLoop cov (k + 1) rem (burgUpdate a (-2 * burgCk cov a k / F) k)

/-- `LPC_CalculateCoefBurg`: build the covariance matrix, run the order
recursion from `a = (1, 0, ...)` and return `a[1 .. order]`.  The status is
always `OK`; `none` marks the NaN coefficient vector produced by a zero
`Fk + Bk` denominator. -/
def LPC_CalculateCoefBurg (d : List ℚ) (N order : ℕ) : LPCError × Option (List ℚ) :=
  (LPCError.ok,
    (burgLoop (burgCov d N) 0 order (fun i => if i = 0 then 1 else 0)).map
      fun a => List.ofFn (n := order) fun i => a (i + 1))

/-- `LPCCalculator_CalculateLPCCoefficientsBurg`: checks only the order
bound against the calculator (`max_num_samples` is never consulted by this
entry point). -/
def LPCCalculator_CalculateLPCCoefficientsBurg (maxOrder maxNumSamples : ℕ)
    (d : List ℚ) (N order : ℕ) : LPCApiResult × Option (List ℚ) :=
  if order > maxOrder then (.exceedMaxOrder, none)
  else
    match LPC_CalculateCoefBurg d N order with
    | (LPCError.ok, res) => (.ok, res)
    | _ => (.failedToCalculate, none)

/-! ## Silent-block behaviour of the three estimators -/

theorem getD_replicate_zero (N j : ℕ) : (List.replicate N (0 : ℚ)).getD j 0 = 0 := by
  rw [List.getD_eq_getElem?_getD, List.getElem?_replicate]
  split <;> rfl

theorem autoCorrElem_replicate_zero (N M lag : ℕ) :
    LPC_AutoCorrElem (List.replicate N 0) M lag = 0 := by
  unfold LPC_AutoCorrElem
  split <;> simp [getD_replicate_zero]

theorem calcAutoCorr_replicate_zero (sinv : ℕ → ℚ) (prevBuf : List ℚ)
    (N M lag : ℕ) :
    LPC_CalcAutoCorr sinv prevBuf (List.replicate M 0) N
      LPCWindowType.rectangular lag = 0 := by
  unfold LPC_CalcAutoCorr LPC_ApplyWindow
  exact autoCorrElem_replicate_zero M N lag

theorem calcCoef_replicate_zero (sinv : ℕ → ℚ) (prevBuf : List ℚ) (N order : ℕ) :
    LPC_CalculateCoef sinv prevBuf (List.replicate N 0) N order
      LPCWindowType.rectangular =
      (LPCError.ok,
        (List.replicate (order + 1) 0, List.replicate (order + 1) 0)) := by
  unfold LPC_CalculateCoef
  by_cases hlt : N < order
  · rw [if_pos hlt]
  · rw [if_neg hlt]
    unfold LPC_LevinsonDurbinRecursion
    rw [calcAutoCorr_replicate_zero]
    rw [if_pos (by norm_num [fltEpsilon])]

theorem levinsonEntrySilent (maxOrder maxNum N order : ℕ) (sinv : ℕ → ℚ)
    (prevBuf : List ℚ) (h2 : order ≤ maxOrder) (h3 : N ≤ maxNum) :
    LPCCalculator_CalculateLPCCoefficients maxOrder maxNum sinv prevBuf
      (List.replicate N 0) N order LPCWindowType.rectangular =
      (LPCApiResult.ok, List.replicate order 0) := by
  unfold LPCCalculator_CalculateLPCCoefficients
  rw [if_neg (by omega), if_neg (by omega), calcCoef_replicate_zero]
  simp

theorem afEntrySilent (maxOrder maxNum N order maxIter : ℕ) (rsqrt : ℚ → ℚ)
    (sinv : ℕ → ℚ) (prevBuf : List ℚ) (h2 : order ≤ maxOrder) :
    LPCCalculator_CalculateLPCCoefficientsAF maxOrder maxNum rsqrt sinv prevBuf
      (List.replicate N 0) N order maxIter LPCWindowType.rectangular =
      (LPCApiResult.ok, List.replicate order 0) := by
  unfold LPCCalculator_CalculateLPCCoefficientsAF LPC_CalculateCoefAF
  rw [if_neg (by omega), calcCoef_replicate_zero]
  simp only
  rw [calcAutoCorr_replicate_zero]
  rw [if_pos (by norm_num [fltEpsilon])]

theorem burgEntrySilent (maxOrder maxNum N order : ℕ)
    (h2 : order ≤ maxOrder) (hord : 0 < order) :
    LPCCalculator_CalculateLPCCoefficientsBurg maxOrder maxNum
      (List.replicate N 0) N order = (LPCApiResult.ok, none) := by
  unfold LPCCalculator_CalculateLPCCoefficientsBurg LPC_CalculateCoefBurg
  rw [if_neg (by omega)]
  obtain ⟨m, rfl⟩ : ∃ m, order = m + 1 := ⟨order - 1, by omega⟩
  rw [burgLoop]
  have hF : burgFkpBk (burgCov (List.replicate N 0) N)
      (fun i => if i = 0 then 1 else 0) 0 = 0 := by
    unfold burgFkpBk burgCov
    simp [autoCorrElem_replicate_zero]
  simp [hF]

/-- C2: for an all-zero block the claim says all three estimators return
success with all-zero coefficients.  The Levinson-Durbin and
auxiliary-function entry points do (for every positive length, every order
within bounds and all oracles).  The Burg entry point does not: on the
silent block its first reflection denominator `Fk + Bk` is exactly `0`, so
the double code computes `mu = -2*0/0 = NaN` (falsifying its own assertion
`|mu| <= 1`) and returns a success status with NaN coefficients, modelled
here by `(OK, none)`. -/
theorem c2_silent_block (maxOrder maxNum N order maxIter : ℕ) (sinv : ℕ → ℚ)
    (rsqrt : ℚ → ℚ) (prevBuf : List ℚ)
    (hN : 0 < N) (h2 : order ≤ maxOrder) (h3 : N ≤ maxNum) (hord : 0 < order) :
    LPCCalculator_CalculateLPCCoefficients maxOrder maxNum sinv prevBuf
        (List.replicate N 0) N order LPCWindowType.rectangular =
      (LPCApiResult.ok, List.replicate order 0) ∧
    LPCCalculator_CalculateLPCCoefficientsAF maxOrder maxNum rsqrt sinv prevBuf
        (List.replicate N 0) N order maxIter LPCWindowType.rectangular =
      (LPCApiResult.ok, List.replicate order 0) ∧
    LPCCalculator_CalculateLPCCoefficientsBurg maxOrder maxNum
        (List.replicate N 0) N order = (LPCApiResult.ok, none) :=
  ⟨levinsonEntrySilent maxOrder maxNum N order sinv prevBuf h2 h3,
   afEntrySilent maxOrder maxNum N order maxIter rsqrt sinv prevBuf h2,
   burgEntrySilent maxOrder maxNum N order h2 hord⟩

/-- Witness for C2 at `max_order = 4`, `max_num_samples = 16`, a 4-sample
silent block and `coef_order = 2`. -/
theorem c2_witness :
    (0 < 4 ∧ 2 ≤ 4 ∧ 4 ≤ 16 ∧ 0 < 2) ∧
    (LPCCalculator_CalculateLPCCoefficients 4 16 (fun _ => 0) []
        (List.replicate 4 0) 4 2 LPCWindowType.rectangular =
      (LPCApiResult.ok, List.replicate 2 0) ∧
    LPCCalculator_CalculateLPCCoefficientsAF 4 16 (fun _ => 0) (fun _ => 0) []
        (List.replicate 4 0) 4 2 3 LPCWindowType.rectangular =
      (LPCApiResult.ok, List.replicate 2 0) ∧
    LPCCalculator_CalculateLPCCoefficientsBurg 4 16
        (List.replicate 4 0) 4 2 = (LPCApiResult.ok, none)) :=
  ⟨⟨by norm_num, by norm_num, by norm_num, by norm_num⟩,
   c2_silent_block 4 16 4 2 3 (fun _ => 0) (fun _ => 0) []
     (by norm_num) (by norm_num) (by norm_num) (by norm_num)⟩

/-- C5 counterexample: the auxiliary-function entry point called with
`num_samples = 4` exceeding the calculator bound `max_num_samples = 2`
does not return `ExceedMaxNumSamples` as the claim states; on a silent
block it returns success. -/
theorem c5_counterexample :
    2 < 4 ∧
    LPCCalculator_CalculateLPCCoefficientsAF 4 2 (fun _ => 0) (fun _ => 0) []
        (List.replicate 4 0) 4 1 0 LPCWindowType.rectangular =
      (LPCApiResult.ok, List.replicate 1 0) :=
  ⟨by norm_num,
   afEntrySilent 4 2 4 1 0 (fun _ => 0) (fun _ => 0) [] (by norm_num)⟩

/-- C5 amended: only the Levinson-Durbin entry point checks the block
length against `max_num_samples`, returning `ExceedMaxNumSamples` whenever
`num_samples > max_num_samples` (once the order check passes); the
auxiliary-function and Burg entry points perform no such check and never
return that status, for any input whatsoever. -/
theorem c5_exceed_num_samples (maxOrder maxNum N order maxIter : ℕ)
    (sinv : ℕ → ℚ) (rsqrt : ℚ → ℚ) (prevBuf data : List ℚ) (wt : LPCWindowType) :
    (order ≤ maxOrder → maxNum < N →
      (LPCCalculator_CalculateLPCCoefficients maxOrder maxNum sinv prevBuf data
          N order wt).1 = LPCApiResult.exceedMaxNumSamples) ∧
    (LPCCalculator_CalculateLPCCoefficientsAF maxOrder maxNum rsqrt sinv prevBuf
        data N order maxIter wt).1 ≠ LPCApiResult.exceedMaxNumSamples ∧
    (LPCCalculator_CalculateLPCCoefficientsBurg maxOrder maxNum data N
        order).1 ≠ LPCApiResult.exceedMaxNumSamples := by
  refine ⟨?_, ?_, ?_⟩
  · intro h1 h2
    unfold LPCCalculator_CalculateLPCCoefficients
    rw [if_neg (by omega), if_pos (by omega)]
  · unfold LPCCalculator_CalculateLPCCoefficientsAF
    split
    · simp
    · split <;> simp
  · unfold LPCCalculator_CalculateLPCCoefficientsBurg
    split
    · simp
    · split <;> simp

/-- Witness for the amended C5 at concrete bounds and inputs. -/
theorem c5_witness :
    (1 ≤ 4 ∧ 2 < 4) ∧
    (LPCCalculator_CalculateLPCCoefficients 4 2 (fun _ => 0) []
        (List.replicate 4 0) 4 1 LPCWindowType.rectangular).1 =
      LPCApiResult.exceedMaxNumSamples ∧
    (LPCCalculator_CalculateLPCCoefficientsAF 4 2 (fun _ => 0) (fun _ => 0) []
        (List.replicate 4 0) 4 1 0 LPCWindowType.rectangular).1 ≠
      LPCApiResult.exceedMaxNumSamples ∧
    (LPCCalculator_CalculateLPCCoefficientsBurg 4 2 (List.replicate 4 0) 4
        1).1 ≠ LPCApiResult.exceedMaxNumSamples :=
  ⟨⟨by norm_num, by norm_num⟩,
   (c5_exceed_num_samples 4 2 4 1 0 (fun _ => 0) (fun _ => 0) []
      (List.replicate 4 0) LPCWindowType.rectangular).1 (by norm_num) (by norm_num),
   (c5_exceed_num_samples 4 2 4 1 0 (fun _ => 0) (fun _ => 0) []
      (List.replicate 4 0) LPCWindowType.rectangular).2.1,
   (c5_exceed_num_samples 4 2 4 1 0 (fun _ => 0) (fun _ => 0) []
      (List.replicate 4 0) LPCWindowType.rectangular).2.2⟩

/-! ## Positive definiteness of the biased autocorrelation (theory for C9) -/

/-- The block extended by zeros to all integer indices. -/
def xpad (d : List ℚ) (N : ℕ) : ℤ → ℚ :=
  fun m => if 0 ≤ m ∧ m < (N : ℤ) then d.getD m.toNat 0 else 0

/-- The convolution of a coefficient vector with the padded block. -/
def convAt (c : ℕ → ℚ) (p : ℕ) (xz : ℤ → ℚ) (n : ℤ) : ℚ :=
  ∑ i ∈ Finset.range (p + 1), c i * xz (n - i)

/-- The Toeplitz quadratic form of the lag function `r` on coefficient
vectors supported on `0 .. p`. -/
def toeplitzQuad (c : ℕ → ℚ) (p : ℕ) (r : ℕ → ℚ) : ℚ :=
  ∑ j ∈ Finset.range (p + 1), ∑ i ∈ Finset.range (p + 1),
    c j * c i * r (Nat.dist j i)

theorem autoCorrNaive_eq_xpad (d : List ℚ) (N lag : ℕ) :
    autoCorrNaive d N lag =
      ∑ m ∈ Finset.range N, xpad d N m * xpad d N ((m : ℤ) + lag) := by
  unfold autoCorrNaive
  rw [← Finset.sum_subset (Finset.range_subset.mpr (Nat.sub_le N lag)) ?_]
  · apply Finset.sum_congr rfl
    intro m hm
    have hm' := Finset.mem_range.mp hm
    unfold xpad
    rw [if_pos ⟨Int.natCast_nonneg m, by exact_mod_cast (by omega : m < N)⟩,
      if_pos ⟨by positivity, by push_cast; omega⟩]
    rw [show ((m : ℤ) + lag).toNat = m + lag by omega, Int.toNat_natCast]
  · intro m hm hnot
    have h1 := Finset.mem_range.mp hm
    have h2 : N ≤ m + lag := by
      by_contra hcon
      push_neg at hcon
      exact hnot (Finset.mem_range.mpr (by omega))
    have hz : xpad d N ((m : ℤ) + lag) = 0 := by
      unfold xpad
      rw [if_neg (by push_cast; omega)]
    rw [hz, mul_zero]

theorem innerShift (d : List ℚ) (N p i j : ℕ) (hij : i ≤ j) (hj : j ≤ p) :
    ∑ n ∈ Finset.range (N + p), xpad d N ((n : ℤ) - i) * xpad d N ((n : ℤ) - j) =
      autoCorrNaive d N (j - i) := by
  rw [autoCorrNaive_eq_xpad]
  have hsub : Finset.Ico j (N + j) ⊆ Finset.range (N + p) := by
    rw [Finset.range_eq_Ico]
    exact Finset.Ico_subset_Ico (Nat.zero_le j) (by omega)
  rw [← Finset.sum_subset hsub ?_]
  · rw [Finset.sum_Ico_eq_sum_range]
    rw [show N + j - j = N by omega]
    apply Finset.sum_congr rfl
    intro t _
    have e1 : ((j + t : ℕ) : ℤ) - i = (t : ℤ) + ((j - i : ℕ) : ℤ) := by push_cast; omega
    have e2 : ((j + t : ℕ) : ℤ) - j = (t : ℤ) := by push_cast; ring
    rw [e1, e2]
    ring
  · intro n hn hnot
    have h1 := Finset.mem_range.mp hn
    have h2 : n < j ∨ N + j ≤ n := by
      by_contra hcon
      push_neg at hcon
      exact hnot (Finset.mem_Ico.mpr (by omega))
    have hz : xpad d N ((n : ℤ) - j) = 0 := by
      unfold xpad
      rw [if_neg (by push_cast; omega)]
    rw [hz, mul_zero]

theorem innerShiftDist (d : List ℚ) (N p i j : ℕ) (hi : i ≤ p) (hj : j ≤ p) :
    ∑ n ∈ Finset.range (N + p), xpad d N ((n : ℤ) - j) * xpad d N ((n : ℤ) - i) =
      autoCorrNaive d N (Nat.dist j i) := by
  rcases le_total j i with h | h
  · rw [show Nat.dist j i = i - j by simp [Nat.dist]; omega]
    exact innerShift d N p j i h hi
  · rw [show Nat.dist j i = j - i by simp [Nat.dist]; omega]
    rw [← innerShift d N p i j h hj]
    apply Finset.sum_congr rfl
    intro n _
    ring

theorem toeplitzQuad_eq_sum_sq (d : List ℚ) (N : ℕ) (c : ℕ → ℚ) (p : ℕ) :
    toeplitzQuad c p (autoCorrNaive d N) =
      ∑ n ∈ Finset.range (N + p), convAt c p (xpad d N) n ^ 2 := by
  unfold toeplitzQuad convAt
  symm
  calc ∑ n ∈ Finset.range (N + p),
        (∑ i ∈ Finset.range (p + 1), c i * xpad d N ((n : ℤ) - i)) ^ 2
      = ∑ n ∈ Finset.range (N + p), ∑ j ∈ Finset.range (p + 1),
          ∑ i ∈ Finset.range (p + 1),
            c j * xpad d N ((n : ℤ) - j) * (c i * xpad d N ((n : ℤ) - i)) :=
        Finset.sum_congr rfl fun n _ => by rw [sq, Finset.sum_mul_sum]
    _ = ∑ j ∈ Finset.range (p + 1), ∑ n ∈ Finset.range (N + p),
          ∑ i ∈ Finset.range (p + 1),
            c j * xpad d N ((n : ℤ) - j) * (c i * xpad d N ((n : ℤ) - i)) :=
        Finset.sum_comm
    _ = ∑ j ∈ Finset.range (p + 1), ∑ i ∈ Finset.range (p + 1),
          ∑ n ∈ Finset.range (N + p),
            c j * xpad d N ((n : ℤ) - j) * (c i * xpad d N ((n : ℤ) - i)) :=
        Finset.sum_congr rfl fun j _ => Finset.sum_comm
    _ = ∑ j ∈ Finset.range (p + 1), ∑ i ∈ Finset.range (p + 1),
          c j * c i * autoCorrNaive d N (Nat.dist j i) := by
        apply Finset.sum_congr rfl
        intro j hj
        apply Finset.sum_congr rfl
        intro i hi
        have hrw : ∀ n : ℕ,
            c j * xpad d N ((n : ℤ) - j) * (c i * xpad d N ((n : ℤ) - i)) =
              c j * c i * (xpad d N ((n : ℤ) - j) * xpad d N ((n : ℤ) - i)) :=
          fun n => by ring
        rw [Finset.sum_congr rfl fun n _ => hrw n, ← Finset.mul_sum]
        rw [innerShiftDist d N p i j (Nat.lt_succ_iff.mp (Finset.mem_range.mp hi))
          (Nat.lt_succ_iff.mp (Finset.mem_range.mp hj))]

/-- Strict positive definiteness: if the block is not identically zero, the
biased-autocorrelation quadratic form is positive on every nonzero
coefficient vector, whatever its support size. -/
theorem toeplitzQuad_pos (d : List ℚ) (N : ℕ) (c : ℕ → ℚ) (p : ℕ)
    (hx : ∃ m, m < N ∧ d.getD m 0 ≠ 0)
    (hc : ∃ i, i ≤ p ∧ c i ≠ 0) :
    0 < toeplitzQuad c p (autoCorrNaive d N) := by
  classical
  rw [toeplitzQuad_eq_sum_sq]
  have hi0 : ∃ i, i ≤ p ∧ c i ≠ 0 := hc
  have hn0 : ∃ m, m < N ∧ d.getD m 0 ≠ 0 := hx
  set i0 := Nat.find hi0 with hi0def
  set n0 := Nat.find hn0 with hn0def
  obtain ⟨hi0p, hi0ne⟩ := Nat.find_spec hi0
  obtain ⟨hn0N, hn0ne⟩ := Nat.find_spec hn0
  apply Finset.sum_pos'
  · intro n _
    positivity
  · refine ⟨i0 + n0, Finset.mem_range.mpr (by omega), ?_⟩
    have hconv : convAt c p (xpad d N) ((i0 + n0 : ℕ) : ℤ) = c i0 * d.getD n0 0 := by
      unfold convAt
      rw [Finset.sum_eq_single i0]
      · unfold xpad
        rw [show ((i0 + n0 : ℕ) : ℤ) - i0 = (n0 : ℤ) by push_cast; ring]
        rw [if_pos ⟨Int.natCast_nonneg n0, by exact_mod_cast hn0N⟩, Int.toNat_natCast]
      · intro i hi hine
        rcases lt_or_gt_of_ne hine with hlt | hgt
        · have : ¬(i ≤ p ∧ c i ≠ 0) := Nat.find_min hi0 hlt
          have hci : c i = 0 := by
            by_contra hcon
            exact this ⟨Nat.lt_succ_iff.mp (Finset.mem_range.mp hi), hcon⟩
          rw [hci, zero_mul]
        · have hz : xpad d N (((i0 + n0 : ℕ) : ℤ) - i) = 0 := by
            unfold xpad
            rcases le_or_lt ((0 : ℤ)) (((i0 + n0 : ℕ) : ℤ) - i) with hge | hltz
            · rw [if_pos ⟨hge, by push_cast; omega⟩]
              have htn : (((i0 + n0 : ℕ) : ℤ) - i).toNat < n0 := by omega
              have : ¬((((i0 + n0 : ℕ) : ℤ) - i).toNat < N ∧
                  d.getD (((i0 + n0 : ℕ) : ℤ) - i).toNat 0 ≠ 0) :=
                Nat.find_min hn0 htn
              by_contra hcon
              exact this ⟨by omega, hcon⟩
            · rw [if_neg (by omega)]
          rw [hz, mul_zero]
      · intro habs
        exact absurd (Finset.mem_range.mpr (by omega)) habs
    rw [hconv]
    have : c i0 * d.getD n0 0 ≠ 0 := mul_ne_zero hi0ne hn0ne
    positivity

/-! ## The Levinson-Durbin invariant and the reflection-coefficient bound -/

/-- For a monic vector satisfying the order-`p` normal equations, the
Toeplitz quadratic form collapses to `sum_i a_i r_i`. -/
theorem toeplitzQuad_of_normal (r a : ℕ → ℚ) (p : ℕ) (h0 : a 0 = 1)
    (hnorm : ∀ j, 1 ≤ j → j ≤ p →
      ∑ i ∈ Finset.range (p + 1), a i * r (Nat.dist j i) = 0) :
    toeplitzQuad a p r = ∑ i ∈ Finset.range (p + 1), a i * r i := by
  unfold toeplitzQuad
  have hterm : ∀ j ∈ Finset.range (p + 1),
      ∑ i ∈ Finset.range (p + 1), a j * a i * r (Nat.dist j i) =
        a j * ∑ i ∈ Finset.range (p + 1), a i * r (Nat.dist j i) := by
    intro j _
    rw [Finset.mul_sum]
    exact Finset.sum_congr rfl fun i _ => by ring
  rw [Finset.sum_congr rfl hterm, Finset.sum_eq_single 0]
  · rw [h0, one_mul]
    apply Finset.sum_congr rfl
    intro i _
    rw [show Nat.dist 0 i = i by simp [Nat.dist]]
  · intro j hj hjne
    rw [hnorm j (by omega) (Nat.lt_succ_iff.mp (Finset.mem_range.mp hj)), mul_zero]
  · intro h
    exact absurd (Finset.mem_range.mpr (by omega)) h

/-- The lag sums of the current coefficient vector against the enlarged
`m+3`-window (the quantities written `S_j` in the step analysis). -/
def ldS (r a : ℕ → ℚ) (m j : ℕ) : ℚ :=
  ∑ i ∈ Finset.range (m + 3), a i * r (Nat.dist j i)

theorem ldState_succ (r : ℕ → ℚ) (m : ℕ) :
    ldState r (m + 1) =
      (fun i => if i ≤ m + 2 then
          (ldState r m).1 i + ldGamma r (m + 1) * (ldState r m).1 (m + 2 - i)
        else 0,
       (ldState r m).2 * (1 - ldGamma r (m + 1) * ldGamma r (m + 1))) := rfl

theorem ldState_succ_fst (r : ℕ → ℚ) (m i : ℕ) :
    (ldState r (m + 1)).1 i =
      if i ≤ m + 2 then
        (ldState r m).1 i + ldGamma r (m + 1) * (ldState r m).1 (m + 2 - i)
      else 0 := rfl

theorem ldState_succ_snd (r : ℕ → ℚ) (m : ℕ) :
    (ldState r (m + 1)).2 =
      (ldState r m).2 * (1 - ldGamma r (m + 1) * ldGamma r (m + 1)) := rfl

/-- The inductive invariant of the Levinson-Durbin recursion under strict
positive definiteness of the lag function: after loop iterations
`k = 1 .. m` the coefficient vector is monic with support `0 .. m+1`,
satisfies the order-`m+1` normal equations, and the error power equals
`sum_i a_i r_i` and is positive. -/
theorem ldInvariant (r : ℕ → ℚ)
    (hPD : ∀ (c : ℕ → ℚ) (p : ℕ), (∃ i, i ≤ p ∧ c i ≠ 0) →
      0 < toeplitzQuad c p r) :
    ∀ m : ℕ,
      (ldState r m).1 0 = 1 ∧
      (∀ j, m + 1 < j → (ldState r m).1 j = 0) ∧
      (∀ j, 1 ≤ j → j ≤ m + 1 →
        ∑ i ∈ Finset.range (m + 2), (ldState r m).1 i * r (Nat.dist j i) = 0) ∧
      (ldState r m).2 = ∑ i ∈ Finset.range (m + 2), (ldState r m).1 i * r i ∧
      0 < (ldState r m).2 := by
  have hr0pos : 0 < r 0 := by
    have h := hPD (fun i => if i = 0 then 1 else 0) 0 ⟨0, le_rfl, one_ne_zero⟩
    simpa [toeplitzQuad] using h
  have hr0 : r 0 ≠ 0 := ne_of_gt hr0pos
  intro m
  induction m with
  | zero =>
    have ha : (ldState r 0).1 =
        fun i => if i = 0 then 1 else if i = 1 then -(r 1 / r 0) else 0 := rfl
    have he : (ldState r 0).2 = r 0 + r 1 * (-(r 1 / r 0)) := rfl
    have h00 : (ldState r 0).1 0 = 1 := by simp [ha]
    have hsupp : ∀ j, 0 + 1 < j → (ldState r 0).1 j = 0 := by
      intro j hj
      simp only [ha]
      rw [if_neg (by omega), if_neg (by omega)]
    have hnorm : ∀ j, 1 ≤ j → j ≤ 0 + 1 →
        ∑ i ∈ Finset.range (0 + 2), (ldState r 0).1 i * r (Nat.dist j i) = 0 := by
      intro j hj1 hj2
      have hj : j = 1 := by omega
      subst hj
      rw [ha]
      rw [Finset.sum_range_succ, Finset.sum_range_succ, Finset.sum_range_zero]
      norm_num [Nat.dist]
      field_simp
    have hechar : (ldState r 0).2 =
        ∑ i ∈ Finset.range (0 + 2), (ldState r 0).1 i * r i := by
      rw [ha, he]
      rw [Finset.sum_range_succ, Finset.sum_range_succ, Finset.sum_range_zero]
      norm_num
      ring
    have hepos : 0 < (ldState r 0).2 := by
      have hq := hPD (ldState r 0).1 1 ⟨0, by omega, by rw [h00]; exact one_ne_zero⟩
      rw [toeplitzQuad_of_normal r (ldState r 0).1 1 h00 hnorm] at hq
      rw [hechar]
      exact hq
    exact ⟨h00, hsupp, hnorm, hechar, hepos⟩
  | succ m ih =>
    obtain ⟨h0, hsupp, hnorm, hechar, hepos⟩ := ih
    have hene : (ldState r m).2 ≠ 0 := ne_of_gt hepos
    have ham2 : (ldState r m).1 (m + 2) = 0 := hsupp _ (by omega)
    have hgamma : ldGamma r (m + 1) =
        (∑ i ∈ Finset.range (m + 2), (ldState r m).1 i * r (m + 2 - i)) /
          (-(ldState r m).2) := rfl
    have hSdrop : ∀ j, ldS r (ldState r m).1 m j =
        ∑ i ∈ Finset.range (m + 2), (ldState r m).1 i * r (Nat.dist j i) := by
      intro j
      unfold ldS
      rw [Finset.sum_range_succ, ham2, zero_mul, add_zero]
    have hS0 : ldS r (ldState r m).1 m 0 = (ldState r m).2 := by
      rw [hSdrop, hechar]
      apply Finset.sum_congr rfl
      intro i _
      rw [show Nat.dist 0 i = i by simp [Nat.dist]]
    have hSnorm : ∀ j, 1 ≤ j → j ≤ m + 1 → ldS r (ldState r m).1 m j = 0 := by
      intro j hj1 hj2
      rw [hSdrop]
      exact hnorm j hj1 hj2
    have hStop : ldS r (ldState r m).1 m (m + 2) =
        ∑ i ∈ Finset.range (m + 2), (ldState r m).1 i * r (m + 2 - i) := by
      rw [hSdrop]
      apply Finset.sum_congr rfl
      intro i hi
      have hi' := Finset.mem_range.mp hi
      have hd : Nat.dist (m + 2) i = m + 2 - i := by simp [Nat.dist]; omega
      rw [hd]
    have hrev : ∀ j, j ≤ m + 2 →
        ∑ i ∈ Finset.range (m + 3),
          (ldState r m).1 (m + 2 - i) * r (Nat.dist j i) =
          ldS r (ldState r m).1 m (m + 2 - j) := by
      intro j hjle
      have hreflect := Finset.sum_range_reflect
        (fun i => (ldState r m).1 (m + 2 - i) * r (Nat.dist j i)) (m + 3)
      rw [← hreflect]
      unfold ldS
      apply Finset.sum_congr rfl
      intro i hi
      have hi' := Finset.mem_range.mp hi
      rw [show m + 3 - 1 - i = m + 2 - i by omega,
        show m + 2 - (m + 2 - i) = i by omega,
        show Nat.dist j (m + 2 - i) = Nat.dist (m + 2 - j) i by simp [Nat.dist]; omega]
    have hterms : ∀ (w : ℕ → ℚ), ∀ i ∈ Finset.range (m + 3),
        (if i ≤ m + 2 then
          (ldState r m).1 i +
            ldGamma r (m + 1) * (ldState r m).1 (m + 2 - i)
        else 0) * w i =
          (ldState r m).1 i * w i +
            ldGamma r (m + 1) * ((ldState r m).1 (m + 2 - i) * w i) := by
      intro w i hi
      rw [if_pos (Nat.lt_succ_iff.mp (Finset.mem_range.mp hi))]
      ring
    have hnorm' : ∀ j, 1 ≤ j → j ≤ m + 2 →
        ∑ i ∈ Finset.range (m + 3), (ldState r (m + 1)).1 i * r (Nat.dist j i) = 0 := by
      intro j hj1 hj2
      simp only [ldState_succ_fst]
      rw [Finset.sum_congr rfl (hterms (fun i => r (Nat.dist j i))),
        Finset.sum_add_distrib, ← Finset.mul_sum, hrev j hj2]
      have hfin : ldS r (ldState r m).1 m j +
          ldGamma r (m + 1) * ldS r (ldState r m).1 m (m + 2 - j) = 0 := by
        rcases Nat.lt_or_ge j (m + 2) with hlt | hge
        · rw [hSnorm j hj1 (by omega), hSnorm (m + 2 - j) (by omega) (by omega),
            mul_zero, add_zero]
        · have hj : j = m + 2 := by omega
          subst hj
          rw [show m + 2 - (m + 2) = 0 by omega, hS0, hStop, hgamma]
          rw [div_neg, neg_mul, div_mul_cancel₀ _ hene]
          ring
      exact hfin
    have h0' : (ldState r (m + 1)).1 0 = 1 := by
      rw [ldState_succ_fst r m 0, if_pos (Nat.zero_le (m + 2)),
        show m + 2 - 0 = m + 2 by omega, ham2, h0]
      ring
    have hsupp' : ∀ j, m + 2 < j → (ldState r (m + 1)).1 j = 0 := by
      intro j hj
      rw [ldState_succ_fst r m j, if_neg (show ¬ j ≤ m + 2 by omega)]
    have hechar' : (ldState r (m + 1)).2 =
        ∑ i ∈ Finset.range (m + 3), (ldState r (m + 1)).1 i * r i := by
      rw [ldState_succ_snd]
      simp only [ldState_succ_fst]
      rw [Finset.sum_congr rfl (hterms r), Finset.sum_add_distrib, ← Finset.mul_sum]
      have hsum1 : ∑ i ∈ Finset.range (m + 3), (ldState r m).1 i * r i =
          (ldState r m).2 := by
        rw [Finset.sum_range_succ, ham2, zero_mul, add_zero, hechar]
      have hsum2 : ∑ i ∈ Finset.range (m + 3),
          (ldState r m).1 (m + 2 - i) * r i =
          ∑ i ∈ Finset.range (m + 2), (ldState r m).1 i * r (m + 2 - i) := by
        have hstep1 : ∑ i ∈ Finset.range (m + 3),
            (ldState r m).1 (m + 2 - i) * r i =
            ∑ i ∈ Finset.range (m + 3),
              (ldState r m).1 (m + 2 - i) * r (Nat.dist 0 i) := by
          apply Finset.sum_congr rfl
          intro i _
          rw [show Nat.dist 0 i = i by simp [Nat.dist]]
        rw [hstep1, hrev 0 (by omega), show m + 2 - 0 = m + 2 by omega, hStop]
      rw [hsum1, hsum2, hgamma]
      field_simp [hene]
      ring
    have hepos' : 0 < (ldState r (m + 1)).2 := by
      have hq := hPD (ldState r (m + 1)).1 (m + 2)
        ⟨0, by omega, by rw [h0']; exact one_ne_zero⟩
      rw [toeplitzQuad_of_normal r (ldState r (m + 1)).1 (m + 2) h0' hnorm'] at hq
      have heq : (ldState r (m + 1)).2 =
          ∑ i ∈ Finset.range (m + 2 + 1), (ldState r (m + 1)).1 i * r i := hechar'
      rw [heq]
      exact hq
    exact ⟨h0', hsupp', hnorm', hechar', hepos'⟩

/-- Under positive definiteness every reflection coefficient of the
Levinson-Durbin loop has magnitude strictly below `1`. -/
theorem ldGamma_abs_lt_one (r : ℕ → ℚ)
    (hPD : ∀ (c : ℕ → ℚ) (p : ℕ), (∃ i, i ≤ p ∧ c i ≠ 0) →
      0 < toeplitzQuad c p r)
    (k : ℕ) (hk : 1 ≤ k) : |ldGamma r k| < 1 := by
  obtain ⟨m, rfl⟩ : ∃ m, k = m + 1 := ⟨k - 1, by omega⟩
  have h1 := (ldInvariant r hPD m).2.2.2.2
  have h2 := (ldInvariant r hPD (m + 1)).2.2.2.2
  rw [ldState_succ_snd] at h2
  have hsq : ldGamma r (m + 1) * ldGamma r (m + 1) < 1 := by nlinarith [h1, h2]
  rw [abs_lt]
  constructor
  · nlinarith [hsq]
  · nlinarith [hsq]

/-- Under positive definiteness the first PARCOR coefficient `r1/r0` has
magnitude strictly below `1`. -/
theorem ldParcor_one_abs_lt_one (r : ℕ → ℚ)
    (hPD : ∀ (c : ℕ → ℚ) (p : ℕ), (∃ i, i ≤ p ∧ c i ≠ 0) →
      0 < toeplitzQuad c p r) :
    |ldParcor r 1| < 1 := by
  have hr0pos : 0 < r 0 := by
    have h := hPD (fun i => if i = 0 then 1 else 0) 0 ⟨0, le_rfl, one_ne_zero⟩
    simpa [toeplitzQuad] using h
  have h1 := (ldInvariant r hPD 0).2.2.2.2
  have he : (ldState r 0).2 = r 0 + r 1 * (-(r 1 / r 0)) := rfl
  rw [he] at h1
  have h2 : 0 < (r 0 + r 1 * (-(r 1 / r 0))) * r 0 := mul_pos h1 hr0pos
  have h3 : (r 0 + r 1 * (-(r 1 / r 0))) * r 0 = r 0 * r 0 - r 1 * r 1 := by
    field_simp
    ring
  rw [h3] at h2
  show |r 1 / r 0| < 1
  rw [abs_div, div_lt_one (abs_pos.mpr (ne_of_gt hr0pos))]
  nlinarith [abs_nonneg (r 1), abs_nonneg (r 0),
    abs_mul_abs_self (r 1), abs_mul_abs_self (r 0)]

/-- The Levinson-Durbin state only consults the lag function on
`0 .. m+2`. -/
theorem ldState_congr (r r' : ℕ → ℚ) :
    ∀ m, (∀ lag, lag ≤ m + 2 → r lag = r' lag) → ldState r m = ldState r' m := by
  intro m
  induction m with
  | zero =>
    intro h
    show ldInit r = ldInit r'
    unfold ldInit
    rw [h 0 (by omega), h 1 (by omega)]
  | succ m ih =>
    intro h
    have hih := ih (fun lag hl => h lag (by omega))
    have hgam : ldGamma r (m + 1) = ldGamma r' (m + 1) := by
      show (∑ i ∈ Finset.range (m + 1 + 1),
          (ldState r m).1 i * r (m + 1 + 1 - i)) / (-(ldState r m).2) =
        (∑ i ∈ Finset.range (m + 1 + 1),
          (ldState r' m).1 i * r' (m + 1 + 1 - i)) / (-(ldState r' m).2)
      rw [hih]
      congr 1
      apply Finset.sum_congr rfl
      intro i hi
      rw [h (m + 1 + 1 - i) (by omega)]
    rw [ldState_succ, ldState_succ, hih, hgam]

/-- The `j`-th PARCOR coefficient only consults the lag function on
`0 .. j`. -/
theorem ldParcor_congr (r r' : ℕ → ℚ) (j : ℕ)
    (h : ∀ lag, lag ≤ j → r lag = r' lag) : ldParcor r j = ldParcor r' j := by
  match j with
  | 0 => rfl
  | 1 =>
    show r 1 / r 0 = r' 1 / r' 0
    rw [h 0 (by omega), h 1 (by omega)]
  | k + 2 =>
    show -(ldGamma r (k + 1)) = -(ldGamma r' (k + 1))
    congr 1
    show (∑ i ∈ Finset.range (k + 1 + 1),
        (ldState r k).1 i * r (k + 1 + 1 - i)) / (-(ldState r k).2) =
      (∑ i ∈ Finset.range (k + 1 + 1),
        (ldState r' k).1 i * r' (k + 1 + 1 - i)) / (-(ldState r' k).2)
    have hst : ldState r k = ldState r' k :=
      ldState_congr r r' k (fun lag hl => h lag (by omega))
    rw [hst]
    congr 1
    apply Finset.sum_congr rfl
    intro i hi
    rw [h (k + 1 + 1 - i) (by omega)]

/-- C9: whenever the zero-power guard does not fire
(`FLT_EPSILON ≤ |r 0|`) and the block is long enough for the recursion
(`coef_order ≤ num_samples`, with `num_samples < 2^32` as for any
`uint32_t` block length), every PARCOR coefficient written by
`LPC_LevinsonDurbinRecursion` on the source's blocked autocorrelation has
magnitude strictly less than one — equivalently every reflection
coefficient `gamma` computed during the recursion satisfies
`|gamma| < 1` — in exact arithmetic. -/
theorem c9_levinson_parcor_bound (d : List ℚ) (N order : ℕ)
    (hN32 : N < 2 ^ 32) (horder : order ≤ N)
    (hguard : fltEpsilon ≤ |LPC_AutoCorrElem d N 0|) :
    ∀ j, 1 ≤ j → j ≤ order →
      |(LPC_LevinsonDurbinRecursion (fun lag => LPC_AutoCorrElem d N lag)
          order).2.getD j 0| < 1 := by
  intro j hj1 hj2
  have hnm : ¬ |LPC_AutoCorrElem d N 0| < fltEpsilon := not_lt.mpr hguard
  unfold LPC_LevinsonDurbinRecursion
  rw [if_neg hnm]
  have hlen : j < (List.ofFn (n := order + 1)
      fun i => ldParcor (fun lag => LPC_AutoCorrElem d N lag) i).length := by
    simp only [List.length_ofFn]
    omega
  rw [List.getD_eq_getElem _ _ hlen, List.getElem_ofFn]
  have hagree : ∀ lag, lag ≤ j → LPC_AutoCorrElem d N lag = autoCorrNaive d N lag :=
    fun lag hl => autoCorrElem_eq_naive d N lag (by omega) hN32
  rw [ldParcor_congr _ (autoCorrNaive d N) j hagree]
  have hr0 : fltEpsilon ≤ |autoCorrNaive d N 0| := by
    rw [← autoCorrElem_eq_naive d N 0 (by omega) hN32]
    exact hguard
  have hx : ∃ m, m < N ∧ d.getD m 0 ≠ 0 := by
    by_contra hcon
    push_neg at hcon
    have hz : autoCorrNaive d N 0 = 0 := by
      unfold autoCorrNaive
      apply Finset.sum_eq_zero
      intro i hi
      have hi' := Finset.mem_range.mp hi
      rw [hcon i (by omega), zero_mul]
    rw [hz] at hr0
    norm_num [fltEpsilon] at hr0
  have hPD : ∀ (c : ℕ → ℚ) (p : ℕ), (∃ i, i ≤ p ∧ c i ≠ 0) →
      0 < toeplitzQuad c p (autoCorrNaive d N) :=
    fun c p hc => toeplitzQuad_pos d N c p hx hc
  match j, hj1 with
  | 1, _ => exact ldParcor_one_abs_lt_one _ hPD
  | (k + 2), _ =>
    show |-(ldGamma (autoCorrNaive d N) (k + 1))| < 1
    rw [abs_neg]
    exact ldGamma_abs_lt_one _ hPD (k + 1) (by omega)

/-- Witness for C9 at the 4-sample block `[1, 0, 0, 0]` with
`coef_order = 2` and `j = 1`. -/
theorem c9_witness :
    ((4 : ℕ) < 2 ^ 32 ∧ (2 : ℕ) ≤ 4 ∧
      fltEpsilon ≤ |LPC_AutoCorrElem [(1 : ℚ), 0, 0, 0] 4 0| ∧ 1 ≤ 1 ∧ 1 ≤ 2) ∧
    |(LPC_LevinsonDurbinRecursion
        (fun lag => LPC_AutoCorrElem [(1 : ℚ), 0, 0, 0] 4 lag) 2).2.getD 1 0| < 1 :=
  ⟨⟨by norm_num, by norm_num,
    by norm_num [LPC_AutoCorrElem, fltEpsilon, Finset.sum_range_succ],
    le_rfl, by norm_num⟩,
   c9_levinson_parcor_bound [(1 : ℚ), 0, 0, 0] 4 2 (by norm_num) (by norm_num)
     (by norm_num [LPC_AutoCorrElem, fltEpsilon, Finset.sum_range_succ])
     1 le_rfl (by norm_num)⟩
